import Mathlib

/-!
Verification of the moon_android ephemeris core (Rust crate `moonlib`).

This file gives a shallow embedding, over exact rationals (and over the
reals where the code applies transcendental functions), of the parts of
the source that the specification claims talk about:

* `src/rust/moonlib/src/util/degrees.rs`   — angle normalization,
* `src/rust/moonlib/src/date/date.rs`      — calendar dates,
* `src/rust/moonlib/src/date/jd.rs`        — Julian-Day conversion,
* `src/rust/src/util/binary_search.rs`     — `upper_bound`,
* `src/rust/moonlib/src/time.rs`           — `cumulative_leap_seconds`,
* `src/rust/tabular/src/time/leap_second_data.rs` — the leap-second table,
* `src/rust/moonlib/src/moon/rise_set_transit.rs` — rise/set/transit solver,
* `src/rust/moonlib/src/refraction.rs`     — atmospheric refraction,
* `src/rust/moonlib/src/moon/position.rs`  — Moon periodic series,
* `src/rust/moonlib/src/moon/phase.rs`     — phase angle / illuminated fraction.

IEEE-754 `f64` arithmetic is idealized as exact rational (or real)
arithmetic; `f64::trunc` (rounding toward zero) and the Rust `%` operator
on `f64` (truncated remainder) are modelled exactly below.
-/

/-- Model of Rust `f64::trunc`: round toward zero. -/
def ftrunc (x : ℚ) : ℚ :=
  if 0 ≤ x then (⌊x⌋ : ℚ) else (⌈x⌉ : ℚ)

/-- Model of the Rust `as`-cast from `f64` to an integer type
(round toward zero; saturation never occurs in the ranges used here). -/
def truncInt (x : ℚ) : ℤ :=
  if 0 ≤ x then ⌊x⌋ else ⌈x⌉

/-- Model of the Rust `%` operator on `f64` (truncated remainder). -/
def frem (x y : ℚ) : ℚ :=
  x - y * ftrunc (x / y)

theorem ftrunc_of_nonneg {x : ℚ} (h : 0 ≤ x) : ftrunc x = (⌊x⌋ : ℚ) := if_pos h

theorem ftrunc_intCast (n : ℤ) : ftrunc (n : ℚ) = (n : ℚ) := by
  unfold ftrunc
  split <;> simp

theorem truncInt_intCast (n : ℤ) : truncInt (n : ℚ) = n := by
  unfold truncInt
  split <;> simp

theorem frem_nonneg_of_nonneg {x y : ℚ} (hx : 0 ≤ x) (hy : 0 < y) :
    0 ≤ frem x y := by
  have hdiv : (0:ℚ) ≤ x / y := div_nonneg hx hy.le
  have hfl : (⌊x / y⌋ : ℚ) ≤ x / y := Int.floor_le _
  have : y * (⌊x / y⌋ : ℚ) ≤ y * (x / y) :=
    mul_le_mul_of_nonneg_left hfl hy.le
  have hxy : y * (x / y) = x := by field_simp
  unfold frem
  rw [ftrunc_of_nonneg hdiv]
  linarith [hxy ▸ this]

theorem frem_lt_of_nonneg {x y : ℚ} (hx : 0 ≤ x) (hy : 0 < y) :
    frem x y < y := by
  have hdiv : (0:ℚ) ≤ x / y := div_nonneg hx hy.le
  have hfl : x / y < (⌊x / y⌋ : ℚ) + 1 := Int.lt_floor_add_one _
  have : y * (x / y) < y * ((⌊x / y⌋ : ℚ) + 1) :=
    mul_lt_mul_of_pos_left hfl hy
  have hxy : y * (x / y) = x := by field_simp
  unfold frem
  rw [ftrunc_of_nonneg hdiv]
  nlinarith [hxy ▸ this]

theorem frem_nonpos_of_nonpos {x y : ℚ} (hx : x < 0) (hy : 0 < y) :
    frem x y ≤ 0 := by
  have hdiv : x / y < 0 := div_neg_of_neg_of_pos hx hy
  have hnn : ¬ (0 ≤ x / y) := not_le.mpr hdiv
  have hcl : x / y ≤ (⌈x / y⌉ : ℚ) := Int.le_ceil _
  have : y * (x / y) ≤ y * (⌈x / y⌉ : ℚ) :=
    mul_le_mul_of_nonneg_left hcl hy.le
  have hxy : y * (x / y) = x := by field_simp
  unfold frem ftrunc
  rw [if_neg hnn]
  linarith [hxy ▸ this]

theorem neg_lt_frem_of_nonpos {x y : ℚ} (hx : x < 0) (hy : 0 < y) :
    -y < frem x y := by
  have hdiv : x / y < 0 := div_neg_of_neg_of_pos hx hy
  have hnn : ¬ (0 ≤ x / y) := not_le.mpr hdiv
  have hcl : (⌈x / y⌉ : ℚ) < x / y + 1 := Int.ceil_lt_add_one _
  have : y * (⌈x / y⌉ : ℚ) < y * (x / y + 1) :=
    mul_lt_mul_of_pos_left hcl hy
  have hxy : y * (x / y) = x := by field_simp
  unfold frem ftrunc
  rw [if_neg hnn]
  nlinarith [hxy ▸ this]

/-- For an argument already strictly inside `(-y, y)`, the truncated
remainder is the identity. -/
theorem frem_self_of_abs_lt {x y : ℚ} (hlo : -y < x) (hhi : x < y)
    (hy : 0 < y) : frem x y = x := by
  rcases le_or_lt 0 x with hx | hx
  · have h0 : (0:ℚ) ≤ x / y := div_nonneg hx hy.le
    have h1 : x / y < 1 := (div_lt_one hy).mpr hhi
    have hz : ⌊x / y⌋ = 0 := by
      rw [Int.floor_eq_zero_iff]
      exact ⟨h0, h1⟩
    unfold frem
    rw [ftrunc_of_nonneg h0, hz]
    simp
  · have hdiv : x / y < 0 := div_neg_of_neg_of_pos hx hy
    have hnn : ¬ (0 ≤ x / y) := not_le.mpr hdiv
    have h1 : -1 < x / y := by
      have hstep : (-y) / y < x / y := (div_lt_div_iff_of_pos_right hy).mpr hlo
      have hyy : (-y) / y = -1 := by field_simp
      linarith [hyy ▸ hstep]
    have hz : ⌈x / y⌉ = 0 := by
      rw [Int.ceil_eq_zero_iff]
      exact ⟨h1, hdiv.le⟩
    unfold frem ftrunc
    rw [if_neg hnn, hz]
    simp

namespace Degrees

/-- Embeds `Degrees::map_to_0_to_360` from `degrees.rs`. -/
def map_to_0_to_360 (x : ℚ) : ℚ :=
  let m := frem x 360
  if m < 0 then m + 360 else m

/-- Embeds `Degrees::map_to_neg90_to_90` from `degrees.rs`. -/
def map_to_neg90_to_90 (x : ℚ) : ℚ :=
  frem x 90

/-- Embeds `Degrees::map_neg180_to_180` from `degrees.rs`. -/
def map_neg180_to_180 (x : ℚ) : ℚ :=
  if x < -180 then 180 + frem x 180
  else if x > 180 then -180 + frem x 180
  else x

/-- Embeds `Degrees::to_hours` from `degrees.rs`
(`DEGREES_TO_HOURS = 24/360` from `constants.rs`). -/
def to_hours (x : ℚ) : ℚ :=
  x * (24 / 360)

theorem map_to_0_to_360_mem (x : ℚ) :
    0 ≤ map_to_0_to_360 x ∧ map_to_0_to_360 x < 360 := by
  unfold map_to_0_to_360
  rcases le_or_lt 0 x with hx | hx
  · have h0 := frem_nonneg_of_nonneg hx (by norm_num : (0:ℚ) < 360)
    have h1 := frem_lt_of_nonneg hx (by norm_num : (0:ℚ) < 360)
    simp only [if_neg (not_lt.mpr h0)]
    exact ⟨h0, h1⟩
  · have h0 := frem_nonpos_of_nonpos hx (by norm_num : (0:ℚ) < 360)
    have h1 := neg_lt_frem_of_nonpos hx (by norm_num : (0:ℚ) < 360)
    by_cases hneg : frem x 360 < 0
    · simp only [if_pos hneg]
      constructor <;> linarith
    · simp only [if_neg hneg]
      push_neg at hneg
      constructor <;> linarith

theorem map_to_0_to_360_eq_self {r : ℚ} (h0 : 0 ≤ r) (h1 : r < 360) :
    map_to_0_to_360 r = r := by
  unfold map_to_0_to_360
  have hr : frem r 360 = r :=
    frem_self_of_abs_lt (by linarith) h1 (by norm_num)
  simp only [hr, if_neg (not_lt.mpr h0)]

theorem map_to_0_to_360_idem (x : ℚ) :
    map_to_0_to_360 (map_to_0_to_360 x) = map_to_0_to_360 x := by
  obtain ⟨h0, h1⟩ := map_to_0_to_360_mem x
  exact map_to_0_to_360_eq_self h0 h1

theorem map_to_neg90_to_90_mem (x : ℚ) :
    -90 < map_to_neg90_to_90 x ∧ map_to_neg90_to_90 x < 90 := by
  unfold map_to_neg90_to_90
  rcases le_or_lt 0 x with hx | hx
  · have h0 := frem_nonneg_of_nonneg hx (by norm_num : (0:ℚ) < 90)
    have h1 := frem_lt_of_nonneg hx (by norm_num : (0:ℚ) < 90)
    constructor <;> linarith
  · have h0 := frem_nonpos_of_nonpos hx (by norm_num : (0:ℚ) < 90)
    have h1 := neg_lt_frem_of_nonpos hx (by norm_num : (0:ℚ) < 90)
    constructor <;> linarith

theorem map_to_neg90_to_90_idem (x : ℚ) :
    map_to_neg90_to_90 (map_to_neg90_to_90 x) = map_to_neg90_to_90 x := by
  obtain ⟨h0, h1⟩ := map_to_neg90_to_90_mem x
  unfold map_to_neg90_to_90
  exact frem_self_of_abs_lt h0 h1 (by norm_num)

theorem map_neg180_to_180_mem (x : ℚ) :
    -180 ≤ map_neg180_to_180 x ∧ map_neg180_to_180 x ≤ 180 := by
  unfold map_neg180_to_180
  by_cases hlt : x < -180
  · have h0 := frem_nonpos_of_nonpos (by linarith : x < 0)
      (by norm_num : (0:ℚ) < 180)
    have h1 := neg_lt_frem_of_nonpos (by linarith : x < 0)
      (by norm_num : (0:ℚ) < 180)
    simp only [if_pos hlt]
    constructor <;> linarith
  · by_cases hgt : x > 180
    · have h0 := frem_nonneg_of_nonneg (by linarith : (0:ℚ) ≤ x)
        (by norm_num : (0:ℚ) < 180)
      have h1 := frem_lt_of_nonneg (by linarith : (0:ℚ) ≤ x)
        (by norm_num : (0:ℚ) < 180)
      simp only [if_neg hlt, if_pos hgt]
      constructor <;> linarith
    · push_neg at hlt hgt
      simp only [if_neg (not_lt.mpr hlt), if_neg (not_lt.mpr hgt)]
      exact ⟨hlt, hgt⟩

theorem map_neg180_to_180_idem (x : ℚ) :
    map_neg180_to_180 (map_neg180_to_180 x) = map_neg180_to_180 x := by
  obtain ⟨h0, h1⟩ := map_neg180_to_180_mem x
  conv_lhs => rw [map_neg180_to_180]
  rw [if_neg (not_lt.mpr h0), if_neg (not_lt.mpr h1)]

end Degrees

/-- Embeds the `Date` struct from `date.rs` (`{year: i16, month: u8, day: f64}`).
The integer fields are modelled by `ℤ`; the `i16`/`u8` ranges are never
exceeded on the Julian-Day range covered by the round-trip theorem. -/
structure Date where
  year : ℤ
  month : ℤ
  day : ℚ
deriving DecidableEq

namespace Date

/-- Embeds `Date::is_julian_calendar` from `date.rs`: any date before or at
1582 Oct 4 is Julian, dates after are Gregorian. -/
def is_julian_calendar (d : Date) : Prop :=
  d.year < 1582 ∨ (d.year = 1582 ∧ (d.month < 10 ∨ (d.month = 10 ∧ d.day < 5)))

instance (d : Date) : Decidable d.is_julian_calendar := by
  unfold is_julian_calendar
  infer_instance

end Date

namespace JD

/-- Embeds `JD::from_date` from `jd.rs` (Meeus ch. 7). -/
def from_date (date : Date) : ℚ :=
  let y := date.year
  let m := date.month
  let d := date.day
  let mm : ℤ := if m < 3 then m + 12 else m
  let yy : ℤ := if m < 3 then y - 1 else y
  let b : ℚ :=
    if ¬ date.is_julian_calendar then
      let a := ftrunc ((yy : ℚ) / 100)
      2 - a + ftrunc (a / 4)
    else 0
  ftrunc (365.25 * ((yy : ℚ) + 4716)) + ftrunc (30.6001 * ((mm : ℚ) + 1))
    + d + b - 1524.5

/-- Embeds `JD::to_calendar_date` from `jd.rs` (Meeus ch. 7, page 63). -/
def to_calendar_date (jd : ℚ) : Date :=
  let jd_mod := jd + 0.5
  let z := ftrunc jd_mod
  let f := jd_mod - z
  let a :=
    if z < 2299161 then z
    else
      let alpha := ftrunc ((z - 1867216.25) / 36524.25)
      z + 1 + alpha - ftrunc (alpha / 4)
  let b := a + 1524
  let c := ftrunc ((b - 122.1) / 365.25)
  let d := ftrunc (365.25 * c)
  let e := ftrunc ((b - d) / 30.6001)
  let day_fract := b - d - ftrunc (30.6001 * e) + f
  let m := if e < 14 then e - 1 else e - 13
  let year := if m > 2 then c - 4716 else c - 4715
  ⟨truncInt year, truncInt m, day_fract⟩

end JD

/-!
Integer-level recompositions of the intermediate values of
`JD.to_calendar_date`, used to reason about the round trip.  These are
proof-side definitions: `JDaux.to_calendar_date_eq` proves that they agree
with the embedded source function.
-/
namespace JDaux

def alphaOf (z : ℤ) : ℤ := ⌊((z : ℚ) - 1867216.25) / 36524.25⌋

def aOf (z : ℤ) : ℤ :=
  if z < 2299161 then z
  else z + 1 + alphaOf z - ⌊(alphaOf z : ℚ) / 4⌋

def cOf (a : ℤ) : ℤ := ⌊((a : ℚ) + 1524 - 122.1) / 365.25⌋

def dOf (a : ℤ) : ℤ := ⌊(365.25 : ℚ) * (cOf a : ℚ)⌋

def eOf (a : ℤ) : ℤ := ⌊((a + 1524 - dOf a : ℤ) : ℚ) / 30.6001⌋

def mOf (a : ℤ) : ℤ := if eOf a < 14 then eOf a - 1 else eOf a - 13

def yearOf (a : ℤ) : ℤ := if mOf a > 2 then cOf a - 4716 else cOf a - 4715

def dayIntOf (a : ℤ) : ℤ :=
  a + 1524 - dOf a - ⌊(30.6001 : ℚ) * (eOf a : ℚ)⌋

theorem alphaOf_nonneg {z : ℤ} (hz : 2299161 ≤ z) : 0 ≤ alphaOf z := by
  unfold alphaOf
  rw [Int.le_floor]
  have : (2299161 : ℚ) ≤ (z : ℚ) := by exact_mod_cast hz
  push_cast
  rw [le_div_iff₀ (by norm_num : (0:ℚ) < 36524.25)]
  linarith

theorem le_aOf {z : ℤ} (h0 : 0 ≤ z) : z ≤ aOf z := by
  unfold aOf
  split
  · exact le_refl z
  · rename_i hge
    push_neg at hge
    have hα : 0 ≤ alphaOf z := alphaOf_nonneg hge
    have hQ : ⌊(alphaOf z : ℚ) / 4⌋ ≤ alphaOf z := by
      have h1 : (alphaOf z : ℚ) / 4 ≤ (alphaOf z : ℚ) := by
        have : (0:ℚ) ≤ (alphaOf z : ℚ) := by exact_mod_cast hα
        linarith
      calc ⌊(alphaOf z : ℚ) / 4⌋ ≤ ⌊((alphaOf z : ℤ) : ℚ)⌋ :=
            Int.floor_le_floor h1
        _ = alphaOf z := Int.floor_intCast _
    omega

theorem aOf_nonneg {z : ℤ} (h0 : 0 ≤ z) : 0 ≤ aOf z :=
  le_trans h0 (le_aOf h0)

theorem cOf_ge_three {a : ℤ} (ha : 0 ≤ a) : 3 ≤ cOf a := by
  unfold cOf
  rw [Int.le_floor]
  have : (0:ℚ) ≤ (a : ℚ) := by exact_mod_cast ha
  push_cast
  rw [le_div_iff₀ (by norm_num : (0:ℚ) < 365.25)]
  linarith

theorem bd_bounds {a : ℤ} (ha : 0 ≤ a) :
    123 ≤ a + 1524 - dOf a ∧ a + 1524 - dOf a ≤ 488 := by
  have hc1 : (cOf a : ℚ) ≤ ((a:ℚ) + 1524 - 122.1) / 365.25 := Int.floor_le _
  have hc2 : ((a:ℚ) + 1524 - 122.1) / 365.25 < (cOf a : ℚ) + 1 :=
    Int.lt_floor_add_one _
  have hd1 : (dOf a : ℚ) ≤ 365.25 * (cOf a : ℚ) := Int.floor_le _
  have hd2 : 365.25 * (cOf a : ℚ) < (dOf a : ℚ) + 1 := Int.lt_floor_add_one _
  have h365 : (cOf a : ℚ) * 365.25 ≤ (a:ℚ) + 1524 - 122.1 :=
    (le_div_iff₀ (by norm_num : (0:ℚ) < 365.25)).mp hc1
  have h365' : (a:ℚ) + 1524 - 122.1 < ((cOf a : ℚ) + 1) * 365.25 :=
    (div_lt_iff₀ (by norm_num : (0:ℚ) < 365.25)).mp hc2
  constructor
  · have hq : (122 : ℚ) < ((a + 1524 - dOf a : ℤ) : ℚ) := by
      push_cast
      linarith
    have : (122 : ℤ) < a + 1524 - dOf a := by exact_mod_cast hq
    omega
  · have hq : ((a + 1524 - dOf a : ℤ) : ℚ) < 489 := by
      push_cast
      linarith
    have : a + 1524 - dOf a < (489 : ℤ) := by exact_mod_cast hq
    omega

theorem eOf_bounds {a : ℤ} (ha : 0 ≤ a) : 4 ≤ eOf a ∧ eOf a ≤ 15 := by
  obtain ⟨hlo, hhi⟩ := bd_bounds ha
  have hloq : (123 : ℚ) ≤ ((a + 1524 - dOf a : ℤ) : ℚ) := by exact_mod_cast hlo
  have hhiq : ((a + 1524 - dOf a : ℤ) : ℚ) ≤ 488 := by exact_mod_cast hhi
  constructor
  · unfold eOf
    rw [Int.le_floor]
    rw [le_div_iff₀ (by norm_num : (0:ℚ) < 30.6001)]
    push_cast at hloq ⊢
    linarith
  · unfold eOf
    have : ⌊((a + 1524 - dOf a : ℤ) : ℚ) / 30.6001⌋ < 16 := by
      rw [Int.floor_lt]
      rw [div_lt_iff₀ (by norm_num : (0:ℚ) < 30.6001)]
      push_cast at hhiq ⊢
      linarith
    omega

/-- The embedded `JD.to_calendar_date` agrees with the integer-level
recomposition of its intermediate values (for nonnegative Julian Day). -/
theorem to_calendar_date_eq (jd : ℚ) (h0 : 0 ≤ jd) :
    JD.to_calendar_date jd =
      ⟨yearOf (aOf ⌊jd + 0.5⌋), mOf (aOf ⌊jd + 0.5⌋),
        (dayIntOf (aOf ⌊jd + 0.5⌋) : ℚ) + (jd + 0.5 - (⌊jd + 0.5⌋ : ℚ))⟩ := by
  have hmod : (0:ℚ) ≤ jd + 0.5 := by linarith
  set z : ℤ := ⌊jd + 0.5⌋ with hzdef
  have hz0 : 0 ≤ z := Int.floor_nonneg.mpr hmod
  have hzq : ftrunc (jd + 0.5) = (z : ℚ) := ftrunc_of_nonneg hmod
  set A : ℤ := aOf z with hAdef
  have hA0 : 0 ≤ A := hAdef ▸ aOf_nonneg hz0
  have hA0q : (0:ℚ) ≤ (A : ℚ) := by exact_mod_cast hA0
  have hC3 : 3 ≤ cOf A := cOf_ge_three hA0
  have hC3q : (3:ℚ) ≤ (cOf A : ℚ) := by exact_mod_cast hC3
  obtain ⟨hbd1, hbd2⟩ := bd_bounds hA0
  obtain ⟨he4, he15⟩ := eOf_bounds hA0
  have he4q : (4:ℚ) ≤ (eOf A : ℚ) := by exact_mod_cast he4
  have ha : (if (z:ℚ) < 2299161 then (z:ℚ)
      else (z:ℚ) + 1 + ftrunc (((z:ℚ) - 1867216.25) / 36524.25)
        - ftrunc (ftrunc (((z:ℚ) - 1867216.25) / 36524.25) / 4)) = (A : ℚ) := by
    by_cases hcase : z < 2299161
    · rw [if_pos (by exact_mod_cast hcase : (z:ℚ) < 2299161)]
      rw [hAdef]
      unfold aOf
      rw [if_pos hcase]
    · have hge : 2299161 ≤ z := by omega
      have hgeq : (2299161 : ℚ) ≤ (z:ℚ) := by exact_mod_cast hge
      rw [if_neg (by push_neg; exact hgeq : ¬ ((z:ℚ) < 2299161))]
      have harg : (0:ℚ) ≤ ((z:ℚ) - 1867216.25) / 36524.25 := by
        apply div_nonneg _ (by norm_num)
        linarith
      rw [ftrunc_of_nonneg harg]
      have hα : (⌊((z:ℚ) - 1867216.25) / 36524.25⌋ : ℤ) = alphaOf z := rfl
      rw [hα]
      have hα0 : 0 ≤ alphaOf z := alphaOf_nonneg hge
      have hα0q : (0:ℚ) ≤ (alphaOf z : ℚ) / 4 := by
        apply div_nonneg _ (by norm_num)
        exact_mod_cast hα0
      rw [ftrunc_of_nonneg hα0q]
      rw [hAdef]
      unfold aOf
      rw [if_neg (by omega : ¬ (z < 2299161))]
      push_cast
      ring
  have hcq : ftrunc (((A:ℚ) + 1524 - 122.1) / 365.25) = ((cOf A : ℤ) : ℚ) := by
    have harg : (0:ℚ) ≤ ((A:ℚ) + 1524 - 122.1) / 365.25 := by
      apply div_nonneg _ (by norm_num)
      linarith
    rw [ftrunc_of_nonneg harg]
    rfl
  have hdq : ftrunc ((365.25 : ℚ) * ((cOf A : ℤ) : ℚ)) = ((dOf A : ℤ) : ℚ) := by
    have harg : (0:ℚ) ≤ (365.25 : ℚ) * ((cOf A : ℤ) : ℚ) := by positivity
    rw [ftrunc_of_nonneg harg]
    rfl
  have hbdq : ((A:ℚ) + 1524 - ((dOf A : ℤ) : ℚ)) = ((A + 1524 - dOf A : ℤ) : ℚ) := by
    push_cast
    ring
  have heq : ftrunc (((A:ℚ) + 1524 - ((dOf A : ℤ) : ℚ)) / 30.6001)
      = ((eOf A : ℤ) : ℚ) := by
    have harg : (0:ℚ) ≤ ((A:ℚ) + 1524 - ((dOf A : ℤ) : ℚ)) / 30.6001 := by
      apply div_nonneg _ (by norm_num)
      rw [hbdq]
      have : (123 : ℚ) ≤ ((A + 1524 - dOf A : ℤ) : ℚ) := by exact_mod_cast hbd1
      linarith
    rw [ftrunc_of_nonneg harg, hbdq]
    rfl
  have htr : ftrunc ((30.6001 : ℚ) * ((eOf A : ℤ) : ℚ))
      = ((⌊(30.6001 : ℚ) * ((eOf A : ℤ) : ℚ)⌋ : ℤ) : ℚ) := by
    have harg : (0:ℚ) ≤ (30.6001 : ℚ) * ((eOf A : ℤ) : ℚ) := by
      apply mul_nonneg (by norm_num)
      linarith
    rw [ftrunc_of_nonneg harg]
  have hmq : (if ((eOf A : ℤ) : ℚ) < 14 then ((eOf A : ℤ) : ℚ) - 1
      else ((eOf A : ℤ) : ℚ) - 13) = ((mOf A : ℤ) : ℚ) := by
    by_cases hcase : eOf A < 14
    · rw [if_pos (by exact_mod_cast hcase : ((eOf A : ℤ):ℚ) < 14)]
      unfold mOf
      rw [if_pos hcase]
      push_cast
      ring
    · have : (14:ℚ) ≤ ((eOf A : ℤ):ℚ) := by
        have := not_lt.mp hcase
        exact_mod_cast this
      rw [if_neg (not_lt.mpr this)]
      unfold mOf
      rw [if_neg hcase]
      push_cast
      ring
  have hyq : (if ((mOf A : ℤ) : ℚ) > 2 then ((cOf A : ℤ) : ℚ) - 4716
      else ((cOf A : ℤ) : ℚ) - 4715) = ((yearOf A : ℤ) : ℚ) := by
    by_cases hcase : mOf A > 2
    · rw [if_pos (by exact_mod_cast hcase : ((mOf A : ℤ):ℚ) > 2)]
      unfold yearOf
      rw [if_pos hcase]
      push_cast
      ring
    · have : ((mOf A : ℤ):ℚ) ≤ 2 := by
        have := not_lt.mp hcase
        exact_mod_cast this
      rw [if_neg (not_lt.mpr this)]
      unfold yearOf
      rw [if_neg hcase]
      push_cast
      ring
  simp only [JD.to_calendar_date]
  rw [hzq, ha, hcq, hdq, heq, htr, hmq, hyq, truncInt_intCast, truncInt_intCast]
  have hday : (A:ℚ) + 1524 - ((dOf A : ℤ) : ℚ)
      - ((⌊(30.6001 : ℚ) * ((eOf A : ℤ) : ℚ)⌋ : ℤ) : ℚ) + (jd + 0.5 - (z:ℚ))
      = ((dayIntOf A : ℤ) : ℚ) + (jd + 0.5 - (z:ℚ)) := by
    unfold dayIntOf
    push_cast
    ring
  rw [hday]

theorem alphaOf_ge_eleven {z : ℤ} (hz : 2299161 ≤ z) : 11 ≤ alphaOf z := by
  unfold alphaOf
  rw [Int.le_floor]
  rw [le_div_iff₀ (by norm_num : (0:ℚ) < 36524.25)]
  have : (2299161 : ℚ) ≤ (z : ℚ) := by exact_mod_cast hz
  push_cast
  linarith

theorem aOf_eq_greg {z : ℤ} (hz : 2299161 ≤ z) :
    aOf z = z + 1 + alphaOf z - ⌊(alphaOf z : ℚ) / 4⌋ := by
  unfold aOf
  rw [if_neg (by omega)]

theorem floorQ_quarter_facts (α : ℤ) :
    4 * ⌊(α : ℚ) / 4⌋ ≤ α ∧ α ≤ 4 * ⌊(α : ℚ) / 4⌋ + 3 := by
  have h1 : (⌊(α : ℚ) / 4⌋ : ℚ) ≤ (α : ℚ) / 4 := Int.floor_le _
  have h2 : (α : ℚ) / 4 < (⌊(α : ℚ) / 4⌋ : ℚ) + 1 := Int.lt_floor_add_one _
  constructor
  · have : (4 : ℚ) * (⌊(α : ℚ) / 4⌋ : ℚ) ≤ (α : ℚ) := by linarith
    exact_mod_cast this
  · have : (α : ℚ) < 4 * (⌊(α : ℚ) / 4⌋ : ℚ) + 4 := by linarith
    have hint : α < 4 * ⌊(α : ℚ) / 4⌋ + 4 := by exact_mod_cast this
    omega

theorem aOf_ge_greg {z : ℤ} (hz : 2299161 ≤ z) : 2299171 ≤ aOf z := by
  have hα := alphaOf_ge_eleven hz
  obtain ⟨hQ1, _⟩ := floorQ_quarter_facts (alphaOf z)
  rw [aOf_eq_greg hz]
  omega

theorem c_bounds_greg {z : ℤ} (hz : 2299161 ≤ z) :
    100 * alphaOf z + 5116 ≤ cOf (aOf z) ∧
      cOf (aOf z) ≤ 100 * alphaOf z + 5215 := by
  have hα1 : (alphaOf z : ℚ) ≤ ((z:ℚ) - 1867216.25) / 36524.25 := Int.floor_le _
  have hα2 : ((z:ℚ) - 1867216.25) / 36524.25 < (alphaOf z : ℚ) + 1 :=
    Int.lt_floor_add_one _
  have hα1' : (alphaOf z : ℚ) * 36524.25 ≤ (z:ℚ) - 1867216.25 :=
    (le_div_iff₀ (by norm_num : (0:ℚ) < 36524.25)).mp hα1
  have hα2' : (z:ℚ) - 1867216.25 < ((alphaOf z : ℚ) + 1) * 36524.25 :=
    (div_lt_iff₀ (by norm_num : (0:ℚ) < 36524.25)).mp hα2
  obtain ⟨hQ1, hQ2⟩ := floorQ_quarter_facts (alphaOf z)
  have hQ1q : (4:ℚ) * (⌊(alphaOf z : ℚ) / 4⌋ : ℚ) ≤ (alphaOf z : ℚ) := by
    exact_mod_cast hQ1
  have hQ2q : (alphaOf z : ℚ) ≤ 4 * (⌊(alphaOf z : ℚ) / 4⌋ : ℚ) + 3 := by
    exact_mod_cast hQ2
  have hA := aOf_eq_greg hz
  have hAq : ((aOf z : ℤ) : ℚ)
      = (z:ℚ) + 1 + (alphaOf z : ℚ) - (⌊(alphaOf z : ℚ) / 4⌋ : ℚ) := by
    rw [hA]
    push_cast
    ring
  have h4z : 4 * z ≤ 146097 * alphaOf z + 7614961 := by
    have hq : (4 * z : ℤ) < ((146097 * alphaOf z + 7614962 : ℤ) : ℚ) := by
      push_cast
      linarith
    have : (4 * z : ℤ) < 146097 * alphaOf z + 7614962 := by exact_mod_cast hq
    omega
  have h4zq : 4 * (z:ℚ) ≤ 146097 * (alphaOf z : ℚ) + 7614961 := by
    exact_mod_cast h4z
  constructor
  · unfold cOf
    rw [Int.le_floor, le_div_iff₀ (by norm_num : (0:ℚ) < 365.25), hAq]
    push_cast
    linarith
  · unfold cOf
    have hflt : ⌊(((aOf z : ℤ):ℚ) + 1524 - 122.1) / 365.25⌋ < 100 * alphaOf z + 5216 := by
      rw [Int.floor_lt, div_lt_iff₀ (by norm_num : (0:ℚ) < 365.25), hAq]
      push_cast
      linarith
    omega

theorem century_eq {z : ℤ} (hz : 2299161 ≤ z) :
    ⌊((cOf (aOf z) - 4716 : ℤ) : ℚ) / 100⌋ = alphaOf z + 4 := by
  obtain ⟨hlo, hhi⟩ := c_bounds_greg hz
  have hloq : ((100 * alphaOf z + 5116 : ℤ) : ℚ) ≤ ((cOf (aOf z) : ℤ) : ℚ) := by
    exact_mod_cast hlo
  have hhiq : ((cOf (aOf z) : ℤ) : ℚ) ≤ ((100 * alphaOf z + 5215 : ℤ) : ℚ) := by
    exact_mod_cast hhi
  rw [Int.floor_eq_iff]
  constructor
  · rw [le_div_iff₀ (by norm_num : (0:ℚ) < 100)]
    push_cast at hloq ⊢
    linarith
  · rw [div_lt_iff₀ (by norm_num : (0:ℚ) < 100)]
    push_cast at hhiq ⊢
    linarith

theorem julian_case {z : ℤ} (hz0 : 0 ≤ z) (hzu : z ≤ 2299160) (f : ℚ)
    (hf0 : 0 ≤ f) (hf1 : f < 1) :
    Date.is_julian_calendar ⟨yearOf z, mOf z, (dayIntOf z : ℚ) + f⟩ := by
  have hzq : (z:ℚ) ≤ 2299160 := by exact_mod_cast hzu
  have hc3 := cOf_ge_three hz0
  obtain ⟨he4, he15⟩ := eOf_bounds hz0
  have hcu : cOf z ≤ 6298 := by
    unfold cOf
    have hlt : ⌊((z:ℚ) + 1524 - 122.1) / 365.25⌋ < 6299 := by
      rw [Int.floor_lt, div_lt_iff₀ (by norm_num : (0:ℚ) < 365.25)]
      push_cast
      linarith
    omega
  unfold Date.is_julian_calendar
  dsimp only
  by_cases h96 : cOf z ≤ 6296
  · left
    unfold yearOf
    split_ifs <;> omega
  · by_cases h97 : cOf z = 6297
    · by_cases hm : mOf z > 2
      · left
        unfold yearOf
        rw [if_pos hm]
        omega
      · right
        refine ⟨?_, Or.inl ?_⟩
        · unfold yearOf
          rw [if_neg hm]
          omega
        · omega
    · have h98 : cOf z = 6298 := by omega
      have hzl : 2298943 ≤ z := by
        have h1 : ((6298 : ℤ) : ℚ) ≤ ((z:ℚ) + 1524 - 122.1) / 365.25 :=
          Int.le_floor.mp (le_of_eq h98.symm)
        rw [le_div_iff₀ (by norm_num : (0:ℚ) < 365.25)] at h1
        have h2 : (2298942 : ℚ) < (z:ℚ) := by
          push_cast at h1
          linarith
        have : (2298942 : ℤ) < z := by exact_mod_cast h2
        omega
      have hd : dOf z = 2300344 := by
        unfold dOf
        rw [h98, Int.floor_eq_iff]
        constructor <;> norm_num
      have heu : eOf z ≤ 11 := by
        unfold eOf
        rw [hd]
        have hlt : ⌊((z + 1524 - 2300344 : ℤ) : ℚ) / 30.6001⌋ < 12 := by
          rw [Int.floor_lt, div_lt_iff₀ (by norm_num : (0:ℚ) < 30.6001)]
          push_cast
          linarith
        omega
      by_cases he10 : eOf z ≤ 10
      · have hm : mOf z = eOf z - 1 := by
          unfold mOf
          rw [if_pos (by omega)]
        have hmgt : mOf z > 2 := by omega
        right
        refine ⟨?_, Or.inl ?_⟩
        · unfold yearOf
          rw [if_pos hmgt]
          omega
        · omega
      · have he11 : eOf z = 11 := by omega
        have hm : mOf z = 10 := by
          unfold mOf
          rw [if_pos (by omega)]
          omega
        have hmgt : mOf z > 2 := by omega
        right
        refine ⟨?_, Or.inr ⟨?_, ?_⟩⟩
        · unfold yearOf
          rw [if_pos hmgt]
          omega
        · omega
        · have htr : ⌊(30.6001:ℚ) * ((eOf z : ℤ) : ℚ)⌋ = 336 := by
            rw [he11, Int.floor_eq_iff]
            constructor <;> norm_num
          have hday : dayIntOf z = z - 2299156 := by
            unfold dayIntOf
            rw [hd, htr]
            omega
          rw [hday]
          push_cast
          linarith

theorem gregorian_case {z : ℤ} (hz : 2299161 ≤ z) (f : ℚ) (hf0 : 0 ≤ f) :
    ¬ Date.is_julian_calendar
        ⟨yearOf (aOf z), mOf (aOf z), (dayIntOf (aOf z) : ℚ) + f⟩ := by
  have hz0 : (0:ℤ) ≤ z := by omega
  have hA0 : 0 ≤ aOf z := aOf_nonneg hz0
  have hAG : 2299171 ≤ aOf z := aOf_ge_greg hz
  have hAGq : (2299171 : ℚ) ≤ ((aOf z : ℤ) : ℚ) := by exact_mod_cast hAG
  obtain ⟨he4, he15⟩ := eOf_bounds hA0
  have hcl : 6298 ≤ cOf (aOf z) := by
    unfold cOf
    rw [Int.le_floor, le_div_iff₀ (by norm_num : (0:ℚ) < 365.25)]
    push_cast
    linarith
  unfold Date.is_julian_calendar
  dsimp only
  push_neg
  by_cases hc9 : 6299 ≤ cOf (aOf z)
  · refine ⟨?_, ?_⟩
    · unfold yearOf
      split_ifs <;> omega
    · intro hy
      exfalso
      unfold yearOf at hy
      revert hy
      split_ifs <;> omega
  · have h98 : cOf (aOf z) = 6298 := by omega
    have hd : dOf (aOf z) = 2300344 := by
      unfold dOf
      rw [h98, Int.floor_eq_iff]
      constructor <;> norm_num
    have hel : 11 ≤ eOf (aOf z) := by
      unfold eOf
      rw [hd, Int.le_floor, le_div_iff₀ (by norm_num : (0:ℚ) < 30.6001)]
      push_cast
      linarith
    by_cases he11 : eOf (aOf z) = 11
    · have hm : mOf (aOf z) = 10 := by
        unfold mOf
        rw [if_pos (by omega)]
        omega
      have hmgt : mOf (aOf z) > 2 := by omega
      have hy : yearOf (aOf z) = 1582 := by
        unfold yearOf
        rw [if_pos hmgt]
        omega
      refine ⟨by omega, ?_⟩
      intro _
      constructor
      · omega
      · intro _
        have htr : ⌊(30.6001:ℚ) * ((eOf (aOf z) : ℤ) : ℚ)⌋ = 336 := by
          rw [he11, Int.floor_eq_iff]
          constructor <;> norm_num
        have hday : dayIntOf (aOf z) = aOf z - 2299156 := by
          unfold dayIntOf
          rw [hd, htr]
          omega
        rw [hday]
        push_cast
        linarith
    · by_cases he13 : eOf (aOf z) ≤ 13
      · have hm : mOf (aOf z) = eOf (aOf z) - 1 := by
          unfold mOf
          rw [if_pos (by omega)]
        have hmgt : mOf (aOf z) > 2 := by omega
        have hy : yearOf (aOf z) = 1582 := by
          unfold yearOf
          rw [if_pos hmgt]
          omega
        refine ⟨by omega, ?_⟩
        intro _
        constructor
        · omega
        · intro hm10
          exfalso
          omega
      · have hm : mOf (aOf z) = eOf (aOf z) - 13 := by
          unfold mOf
          rw [if_neg (by omega)]
        have hmle : ¬ (mOf (aOf z) > 2) := by omega
        have hy : yearOf (aOf z) = 1583 := by
          unfold yearOf
          rw [if_neg hmle]
          omega
        refine ⟨by omega, ?_⟩
        intro hy2
        exfalso
        omega

theorem mm_yy {A : ℤ} (hA : 0 ≤ A) :
    (if mOf A < 3 then mOf A + 12 else mOf A) = eOf A - 1 ∧
    (if mOf A < 3 then yearOf A - 1 else yearOf A) = cOf A - 4716 := by
  obtain ⟨he4, he15⟩ := eOf_bounds hA
  constructor
  · unfold mOf
    split_ifs <;> omega
  · unfold yearOf mOf
    split_ifs <;> omega

end JDaux

/-- The embedded `JD.from_date` undoes `JD.to_calendar_date` exactly, for
every nonnegative Julian Day. -/
theorem jd_roundtrip_exact (jd : ℚ) (h0 : 0 ≤ jd) :
    JD.from_date (JD.to_calendar_date jd) = jd := by
  rw [JDaux.to_calendar_date_eq jd h0]
  have hmod : (0:ℚ) ≤ jd + 0.5 := by linarith
  set z : ℤ := ⌊jd + 0.5⌋ with hzdef
  have hz0 : 0 ≤ z := Int.floor_nonneg.mpr hmod
  have hzle : (z:ℚ) ≤ jd + 0.5 := Int.floor_le _
  have hzgt : jd + 0.5 < (z:ℚ) + 1 := Int.lt_floor_add_one _
  have hf0 : (0:ℚ) ≤ jd + 0.5 - (z:ℚ) := by linarith
  have hf1 : jd + 0.5 - (z:ℚ) < 1 := by linarith
  by_cases hcase : z < 2299161
  · -- Julian branch of `to_calendar_date`
    have haz : JDaux.aOf z = z := by
      unfold JDaux.aOf
      rw [if_pos hcase]
    rw [haz]
    have hjul := JDaux.julian_case hz0 (by omega) _ hf0 hf1
    obtain ⟨hmm, hyy⟩ := JDaux.mm_yy hz0
    have hc3 := JDaux.cOf_ge_three hz0
    have hc3q : (0:ℚ) ≤ ((JDaux.cOf z : ℤ) : ℚ) := by
      have : (0:ℤ) ≤ JDaux.cOf z := by omega
      exact_mod_cast this
    obtain ⟨he4, _⟩ := JDaux.eOf_bounds hz0
    have he4q : (0:ℚ) ≤ ((JDaux.eOf z : ℤ) : ℚ) := by
      have : (0:ℤ) ≤ JDaux.eOf z := by omega
      exact_mod_cast this
    simp only [JD.from_date]
    rw [if_neg (not_not_intro hjul)]
    rw [hmm, hyy]
    have hc1 : ((JDaux.cOf z - 4716 : ℤ) : ℚ) + 4716 = ((JDaux.cOf z : ℤ) : ℚ) := by
      push_cast
      ring
    have he1 : ((JDaux.eOf z - 1 : ℤ) : ℚ) + 1 = ((JDaux.eOf z : ℤ) : ℚ) := by
      push_cast
      ring
    rw [hc1, he1]
    rw [ftrunc_of_nonneg (by positivity : (0:ℚ) ≤ 365.25 * ((JDaux.cOf z : ℤ) : ℚ))]
    rw [ftrunc_of_nonneg (by positivity : (0:ℚ) ≤ 30.6001 * ((JDaux.eOf z : ℤ) : ℚ))]
    have hfl365 : (⌊(365.25:ℚ) * ((JDaux.cOf z : ℤ) : ℚ)⌋ : ℤ) = JDaux.dOf z := rfl
    rw [hfl365]
    unfold JDaux.dayIntOf
    push_cast
    ring
  · -- Gregorian branch of `to_calendar_date`
    have hge : 2299161 ≤ z := by omega
    have hA0 : 0 ≤ JDaux.aOf z := JDaux.aOf_nonneg hz0
    have hgreg := JDaux.gregorian_case hge _ hf0
    obtain ⟨hmm, hyy⟩ := JDaux.mm_yy hA0
    have hα11 := JDaux.alphaOf_ge_eleven hge
    obtain ⟨hclo, _⟩ := JDaux.c_bounds_greg hge
    have hc0 : (0:ℤ) ≤ JDaux.cOf (JDaux.aOf z) - 4716 := by omega
    have hc3q : (0:ℚ) ≤ ((JDaux.cOf (JDaux.aOf z) : ℤ) : ℚ) := by
      have : (0:ℤ) ≤ JDaux.cOf (JDaux.aOf z) := by omega
      exact_mod_cast this
    obtain ⟨he4, _⟩ := JDaux.eOf_bounds hA0
    have he4q : (0:ℚ) ≤ ((JDaux.eOf (JDaux.aOf z) : ℤ) : ℚ) := by
      have : (0:ℤ) ≤ JDaux.eOf (JDaux.aOf z) := by omega
      exact_mod_cast this
    simp only [JD.from_date]
    rw [if_pos hgreg]
    rw [hmm, hyy]
    have hc1 : ((JDaux.cOf (JDaux.aOf z) - 4716 : ℤ) : ℚ) + 4716
        = ((JDaux.cOf (JDaux.aOf z) : ℤ) : ℚ) := by
      push_cast
      ring
    have he1 : ((JDaux.eOf (JDaux.aOf z) - 1 : ℤ) : ℚ) + 1
        = ((JDaux.eOf (JDaux.aOf z) : ℤ) : ℚ) := by
      push_cast
      ring
    rw [hc1, he1]
    have hyydiv : (0:ℚ) ≤ ((JDaux.cOf (JDaux.aOf z) - 4716 : ℤ) : ℚ) / 100 := by
      apply div_nonneg _ (by norm_num)
      exact_mod_cast hc0
    rw [ftrunc_of_nonneg hyydiv]
    have hcent : (⌊((JDaux.cOf (JDaux.aOf z) - 4716 : ℤ) : ℚ) / 100⌋ : ℤ)
        = JDaux.alphaOf z + 4 := JDaux.century_eq hge
    rw [hcent]
    have hα4q : (0:ℚ) ≤ ((JDaux.alphaOf z + 4 : ℤ) : ℚ) / 4 := by
      apply div_nonneg _ (by norm_num)
      have : (0:ℤ) ≤ JDaux.alphaOf z + 4 := by omega
      exact_mod_cast this
    rw [ftrunc_of_nonneg hα4q]
    have hq4 : ((JDaux.alphaOf z + 4 : ℤ) : ℚ) / 4 = (JDaux.alphaOf z : ℚ) / 4 + 1 := by
      push_cast
      ring
    have hfl4 : (⌊((JDaux.alphaOf z + 4 : ℤ) : ℚ) / 4⌋ : ℤ)
        = ⌊(JDaux.alphaOf z : ℚ) / 4⌋ + 1 := by
      rw [hq4]
      exact_mod_cast Int.floor_add_one ((JDaux.alphaOf z : ℚ) / 4)
    rw [hfl4]
    rw [ftrunc_of_nonneg
      (by positivity : (0:ℚ) ≤ 365.25 * ((JDaux.cOf (JDaux.aOf z) : ℤ) : ℚ))]
    rw [ftrunc_of_nonneg
      (by positivity : (0:ℚ) ≤ 30.6001 * ((JDaux.eOf (JDaux.aOf z) : ℤ) : ℚ))]
    have hfl365 : (⌊(365.25:ℚ) * ((JDaux.cOf (JDaux.aOf z) : ℤ) : ℚ)⌋ : ℤ)
        = JDaux.dOf (JDaux.aOf z) := rfl
    rw [hfl365]
    have hAq : ((JDaux.aOf z : ℤ) : ℚ)
        = (z:ℚ) + 1 + (JDaux.alphaOf z : ℚ) - (⌊(JDaux.alphaOf z : ℚ) / 4⌋ : ℚ) := by
      rw [JDaux.aOf_eq_greg hge]
      push_cast
      ring
    unfold JDaux.dayIntOf
    push_cast
    rw [hAq]
    ring

/-- C1: for every Julian Day `jd` in the supported proleptic range
(nonnegative, and small enough that the year fits an `i16`), converting
`jd` to a calendar date with `JD::to_calendar_date` and back with
`JD::from_date` yields `jd` again to within 1e-6 day (here: exactly, since
the arithmetic is modelled exactly). -/
theorem C1_jd_roundtrip (jd : ℚ) (h0 : 0 ≤ jd) (h1 : jd ≤ 10000000) :
    |JD.from_date (JD.to_calendar_date jd) - jd| ≤ 1 / 1000000 := by
  rw [jd_roundtrip_exact jd h0]
  norm_num

/-- Witness for C1 at the Meeus example 7.c input JD 2436116.31. -/
theorem C1_jd_roundtrip_witness :
    (0:ℚ) ≤ 2436116.31 ∧ (2436116.31:ℚ) ≤ 10000000 ∧
      |JD.from_date (JD.to_calendar_date (2436116.31:ℚ)) - 2436116.31| ≤ 1 / 1000000 :=
  ⟨by norm_num, by norm_num,
    C1_jd_roundtrip 2436116.31 (by norm_num) (by norm_num)⟩

/-- Loop of `upper_bound` from `binary_search.rs` (`while min_idx < max_idx`),
modelled by fuel-counted tail recursion; `upper_bound` passes enough fuel
that it is never exhausted, since `max_idx - min_idx` shrinks every pass. -/
def upper_bound.go {α : Type} [LinearOrder α] (data : List α) (to_find : α) :
    ℕ → ℕ → ℕ → ℕ
  | 0, min_idx, _ => min_idx
  | fuel + 1, min_idx, max_idx =>
    if min_idx < max_idx then
      let mid_idx := min_idx + (max_idx - min_idx) / 2
      if data.getD mid_idx to_find ≤ to_find then
        upper_bound.go data to_find fuel (mid_idx + 1) max_idx
      else
        upper_bound.go data to_find fuel min_idx mid_idx
    else min_idx

/-- Embeds `upper_bound` from `binary_search.rs`: binary search for the
first element strictly greater than `to_find` (the Rust test
`*to_find >= data[mid_idx]` is `data[mid_idx] ≤ to_find` here), followed by
the source's final `data[min_idx] <= *to_find` adjustment. -/
def upper_bound {α : Type} [LinearOrder α] (data : List α) (to_find : α) : ℕ :=
  let min_idx := upper_bound.go data to_find (data.length + 1) 0 data.length
  if min_idx < data.length ∧ data.getD min_idx to_find ≤ to_find then min_idx + 1
  else min_idx

theorem sorted_getD_mono {α : Type} [LinearOrder α] {l : List α}
    (hs : l.Sorted (· ≤ ·)) {i j : ℕ} (hij : i ≤ j) (hj : j < l.length) (x : α) :
    l.getD i x ≤ l.getD j x := by
  have hi : i < l.length := Nat.lt_of_le_of_lt hij hj
  rw [List.getD_eq_getElem l x hi, List.getD_eq_getElem l x hj]
  rcases eq_or_lt_of_le hij with heq | hlt
  · subst heq
    exact le_refl _
  · exact List.Sorted.rel_get_of_lt hs (by exact_mod_cast hlt)

theorem upper_bound_go_spec {α : Type} [LinearOrder α] (data : List α) (q : α)
    (hs : data.Sorted (· ≤ ·)) :
    ∀ (fuel min_idx max_idx : ℕ),
      max_idx ≤ data.length → min_idx ≤ max_idx → max_idx - min_idx ≤ fuel →
      (∀ i, i < min_idx → data.getD i q ≤ q) →
      (∀ i, max_idx ≤ i → i < data.length → q < data.getD i q) →
      min_idx ≤ upper_bound.go data q fuel min_idx max_idx ∧
        upper_bound.go data q fuel min_idx max_idx ≤ max_idx ∧
        (∀ i, i < upper_bound.go data q fuel min_idx max_idx →
          data.getD i q ≤ q) ∧
        (∀ i, upper_bound.go data q fuel min_idx max_idx ≤ i →
          i < data.length → q < data.getD i q) := by
  intro fuel
  induction fuel with
  | zero =>
    intro min_idx max_idx hmax hmm hfuel hlo hhi
    have heq : min_idx = max_idx := by omega
    subst heq
    simp only [upper_bound.go]
    exact ⟨le_refl _, le_refl _, hlo, fun i hi hlen => hhi i hi hlen⟩
  | succ fuel ih =>
    intro min_idx max_idx hmax hmm hfuel hlo hhi
    simp only [upper_bound.go]
    by_cases hlt : min_idx < max_idx
    · rw [if_pos hlt]
      have hmid1 : min_idx ≤ min_idx + (max_idx - min_idx) / 2 := Nat.le_add_right _ _
      have hmid2 : min_idx + (max_idx - min_idx) / 2 < max_idx := by omega
      by_cases hcmp : data.getD (min_idx + (max_idx - min_idx) / 2) q ≤ q
      · rw [if_pos hcmp]
        have hlo' : ∀ i, i < min_idx + (max_idx - min_idx) / 2 + 1 →
            data.getD i q ≤ q := by
          intro i hi
          have hile : i ≤ min_idx + (max_idx - min_idx) / 2 := by omega
          calc data.getD i q
              ≤ data.getD (min_idx + (max_idx - min_idx) / 2) q :=
                sorted_getD_mono hs hile (by omega) q
            _ ≤ q := hcmp
        obtain ⟨r1, r2, r3, r4⟩ := ih (min_idx + (max_idx - min_idx) / 2 + 1)
          max_idx hmax (by omega) (by omega) hlo' hhi
        exact ⟨by omega, r2, r3, r4⟩
      · rw [if_neg hcmp]
        push_neg at hcmp
        have hhi' : ∀ i, min_idx + (max_idx - min_idx) / 2 ≤ i →
            i < data.length → q < data.getD i q := by
          intro i hge hlen
          calc q < data.getD (min_idx + (max_idx - min_idx) / 2) q := hcmp
            _ ≤ data.getD i q := sorted_getD_mono hs hge hlen q
        obtain ⟨r1, r2, r3, r4⟩ := ih min_idx (min_idx + (max_idx - min_idx) / 2)
          (by omega) (by omega) (by omega) hlo hhi'
        exact ⟨r1, by omega, r3, r4⟩
    · rw [if_neg hlt]
      have heq : min_idx = max_idx := by omega
      exact ⟨le_refl _, by omega,
        hlo, fun i hi hlen => hhi i (by omega) hlen⟩

/-- C6: on a slice sorted in ascending order, `upper_bound` returns the
index of the first element strictly greater than the query (every element
before the returned index compares `≤` the query — so duplicates equal to
the query are all skipped — and every element from the returned index on is
`>` the query), or the slice length when no element exceeds the query. -/
theorem C6_upper_bound {α : Type} [LinearOrder α] (data : List α) (q : α)
    (hs : data.Sorted (· ≤ ·)) :
    upper_bound data q ≤ data.length ∧
      (∀ i, i < upper_bound data q → data.getD i q ≤ q) ∧
      (∀ i, upper_bound data q ≤ i → i < data.length → q < data.getD i q) := by
  obtain ⟨h1, h2, h3, h4⟩ :=
    upper_bound_go_spec data q hs (data.length + 1) 0 data.length (le_refl _)
      (Nat.zero_le _) (by omega) (by omega) (by intro i hi hlen; omega)
  unfold upper_bound
  have hcond : ¬ (upper_bound.go data q (data.length + 1) 0 data.length < data.length ∧
      data.getD (upper_bound.go data q (data.length + 1) 0 data.length) q ≤ q) := by
    rintro ⟨hlen, hle⟩
    exact absurd hle (not_le.mpr (h4 _ (le_refl _) hlen))
  rw [if_neg hcond]
  exact ⟨h2, h3, h4⟩

/-- Witness for C6 on the duplicate-key test data from `binary_search.rs`
(`[10,10,10,20,20,20,30,30]`, query 20, expected index 6). -/
theorem C6_upper_bound_witness :
    ([10, 10, 10, 20, 20, 20, 30, 30] : List ℤ).Sorted (· ≤ ·) ∧
      upper_bound ([10, 10, 10, 20, 20, 20, 30, 30] : List ℤ) 20 = 6 ∧
      (upper_bound ([10, 10, 10, 20, 20, 20, 30, 30] : List ℤ) 20 ≤
          ([10, 10, 10, 20, 20, 20, 30, 30] : List ℤ).length ∧
        (∀ i, i < upper_bound ([10, 10, 10, 20, 20, 20, 30, 30] : List ℤ) 20 →
          ([10, 10, 10, 20, 20, 20, 30, 30] : List ℤ).getD i 20 ≤ 20) ∧
        (∀ i, upper_bound ([10, 10, 10, 20, 20, 20, 30, 30] : List ℤ) 20 ≤ i →
          i < ([10, 10, 10, 20, 20, 20, 30, 30] : List ℤ).length →
          (20:ℤ) < ([10, 10, 10, 20, 20, 20, 30, 30] : List ℤ).getD i 20)) :=
  ⟨by decide, by decide,
    C6_upper_bound ([10, 10, 10, 20, 20, 20, 30, 30] : List ℤ) 20 (by decide)⟩

/-- Embeds the `LeapSecondCoefficient` record from `leap_second_data.rs`.
Its Rust `PartialOrd` compares the `jd` field only. -/
structure LeapSecondCoefficient where
  jd : ℚ
  leap_seconds : ℚ
  base_mjd : ℚ
  coefficient : ℚ
deriving DecidableEq

instance : Inhabited LeapSecondCoefficient := ⟨⟨0, 0, 0, 0⟩⟩

/-- Embeds the 41-entry `LEAP_SECOND_DATA` table from `leap_second_data.rs`
(data from the IERS `tai-utc.dat` file). -/
def LEAP_SECOND_DATA : List LeapSecondCoefficient := [
  ⟨2437300.5, 1.4228180, 37300.0, 0.001296⟩,
  ⟨2437512.5, 1.3728180, 37300.0, 0.0⟩,
  ⟨2437665.5, 1.8458580, 37665.0, 0.0⟩,
  ⟨2438334.5, 1.9458580, 37665.0, 0.0⟩,
  ⟨2438395.5, 3.2401300, 38761.0, 0.0⟩,
  ⟨2438486.5, 3.3401300, 38761.0, 0.0⟩,
  ⟨2438639.5, 3.4401300, 38761.0, 0.0⟩,
  ⟨2438761.5, 3.5401300, 38761.0, 0.0⟩,
  ⟨2438820.5, 3.6401300, 38761.0, 0.0⟩,
  ⟨2438942.5, 3.7401300, 38761.0, 0.0⟩,
  ⟨2439004.5, 3.8401300, 38761.0, 0.0⟩,
  ⟨2439126.5, 4.3131700, 39126.0, 0.0⟩,
  ⟨2439887.5, 4.2131700, 39126.0, 0.0⟩,
  ⟨2441317.5, 10.0, 41317.0, 0.0⟩,
  ⟨2441499.5, 11.0, 41317.0, 0.0⟩,
  ⟨2441683.5, 12.0, 41317.0, 0.0⟩,
  ⟨2442048.5, 13.0, 41317.0, 0.0⟩,
  ⟨2442413.5, 14.0, 41317.0, 0.0⟩,
  ⟨2442778.5, 15.0, 41317.0, 0.0⟩,
  ⟨2443144.5, 16.0, 41317.0, 0.0⟩,
  ⟨2443509.5, 17.0, 41317.0, 0.0⟩,
  ⟨2443874.5, 18.0, 41317.0, 0.0⟩,
  ⟨2444239.5, 19.0, 41317.0, 0.0⟩,
  ⟨2444786.5, 20.0, 41317.0, 0.0⟩,
  ⟨2445151.5, 21.0, 41317.0, 0.0⟩,
  ⟨2445516.5, 22.0, 41317.0, 0.0⟩,
  ⟨2446247.5, 23.0, 41317.0, 0.0⟩,
  ⟨2447161.5, 24.0, 41317.0, 0.0⟩,
  ⟨2447892.5, 25.0, 41317.0, 0.0⟩,
  ⟨2448257.5, 26.0, 41317.0, 0.0⟩,
  ⟨2448804.5, 27.0, 41317.0, 0.0⟩,
  ⟨2449169.5, 28.0, 41317.0, 0.0⟩,
  ⟨2449534.5, 29.0, 41317.0, 0.0⟩,
  ⟨2450083.5, 30.0, 41317.0, 0.0⟩,
  ⟨2450630.5, 31.0, 41317.0, 0.0⟩,
  ⟨2451179.5, 32.0, 41317.0, 0.0⟩,
  ⟨2453736.5, 33.0, 41317.0, 0.0⟩,
  ⟨2454832.5, 34.0, 41317.0, 0.0⟩,
  ⟨2456109.5, 35.0, 41317.0, 0.0⟩,
  ⟨2457204.5, 36.0, 41317.0, 0.0⟩,
  ⟨2457754.5, 37.0, 41317.0, 0.0⟩]

/-- Embeds `jd_to_mjd` from `jd.rs` (`MJD = 2_400_000.5` in `constants.rs`). -/
def jd_to_mjd (jd : ℚ) : ℚ := jd - 2400000.5

/-- Embeds `cumulative_leap_seconds` from `time.rs`.  The Rust code calls
`upper_bound` on the `LeapSecondCoefficient` slice, whose `PartialOrd`
compares only the `jd` fields; every comparison the search makes is a
`jd`-field comparison, so the call is rendered as `upper_bound` on the list
of `jd` fields with the query `jd`. -/
def cumulative_leap_seconds (jd : ℚ) : ℚ :=
  let last : ℕ := LEAP_SECOND_DATA.length - 1
  if (LEAP_SECOND_DATA.getD 0 default).jd ≤ jd then
    let idx : ℕ :=
      if jd < (LEAP_SECOND_DATA.getD last default).jd then
        upper_bound (LEAP_SECOND_DATA.map (fun c => c.jd)) jd
      else last
    let leap_item := LEAP_SECOND_DATA.getD (idx - 1) default
    leap_item.leap_seconds
      + (jd_to_mjd jd - leap_item.base_mjd) * leap_item.coefficient
  else 0

namespace constants

/-- Embeds `SIDERIAL_TO_SOLAR_TIME = 23.9344696 / 24.0` from `constants.rs`. -/
def SIDERIAL_TO_SOLAR_TIME : ℚ := 23.9344696 / 24

/-- Embeds `HOURS_TO_DAYS = 1.0 / 24.0` from `constants.rs`. -/
def HOURS_TO_DAYS : ℚ := 1 / 24

end constants

/-- Embeds `local_siderial_time` from `earth.rs`:
`Degrees::new(siderial_time.0 - longitude_observer.0).map_to_0_to_360()`. -/
def local_siderial_time (siderial_time longitude_observer : ℚ) : ℚ :=
  Degrees.map_to_0_to_360 (siderial_time - longitude_observer)

/-- Embeds `OutputKind` from `rise_set_transit.rs`. -/
inductive OutputKind
  | Time (jd : ℚ)
  | NeverRises
  | NeverSets
deriving DecidableEq

/-- Embeds `InputKind` from `rise_set_transit.rs`. -/
inductive InputKind
  | Rise
  | Set
  | Transit
deriving DecidableEq

/-- Oracle for the transcendental `f64` evaluations that
`calculate_rise_set_transit` performs at each trial Julian Day: the sine
and cosine of the Moon declination `decl` at the trial JD, the right
ascension `ra`, the apparent sidereal time `theta0` at Greenwich
(`earth::apparent_siderial_time`), the degree-valued arc cosine
(`Degrees::from(Radians::new(x.acos()))`), together with the per-call
scalars `sin/cos` of the observer latitude and `sin` of the target
altitude computed before the loop.  The solver's control flow (the subject
of the claims) is embedded exactly over this oracle. -/
structure MoonEphemeris where
  sin_decl : ℚ → ℚ
  cos_decl : ℚ → ℚ
  ra : ℚ → ℚ
  theta0 : ℚ → ℚ
  acos_deg : ℚ → ℚ
  sin_latitude_observer : ℚ
  cos_latitude_observer : ℚ
  sin_h0 : ℚ

/-- The `cos_hour_angle` computation of `calculate_rise_set_transit`:
`(sin_h0 - sin_latitude_observer * sin_decl) / (cos_latitude_observer * cos_decl)`. -/
def cos_hour_angle (env : MoonEphemeris) (jd : ℚ) : ℚ :=
  (env.sin_h0 - env.sin_latitude_observer * env.sin_decl jd)
    / (env.cos_latitude_observer * env.cos_decl jd)

/-- The `delta_hour_angle` selection of `calculate_rise_set_transit`:
rise and set add/subtract the hour angle and re-map to `[-180, 180)`;
transit uses the raw local hour angle. -/
def delta_hour_angle_of (kind : InputKind) (hour_angle2 hour_angle : ℚ) : ℚ :=
  match kind with
  | InputKind.Rise => Degrees.map_neg180_to_180 (hour_angle2 + hour_angle)
  | InputKind.Set => Degrees.map_neg180_to_180 (hour_angle2 - hour_angle)
  | InputKind.Transit => hour_angle2

/-- The correction step `delta_t` (in solar-time hours) of one iteration of
`calculate_rise_set_transit` at trial JD `jd`. -/
def delta_t_of (env : MoonEphemeris) (kind : InputKind) (lon jd : ℚ) : ℚ :=
  let hour_angle := env.acos_deg (cos_hour_angle env jd)
  let theta := local_siderial_time (env.theta0 jd) lon
  let hour_angle2 := Degrees.map_neg180_to_180 (theta - env.ra jd)
  Degrees.to_hours (delta_hour_angle_of kind hour_angle2 hour_angle)
    * constants.SIDERIAL_TO_SOLAR_TIME

/-- One fuel-counted rendering of the `loop` of
`calculate_rise_set_transit`: returns either an early classification
(`Sum.inl`: `cos H0` out of `[-1, 1]`) or the last trial JD after the
break (`Sum.inr`), together with the number of loop-body executions.  The
break condition is the source's `delta_t.abs() < 1/60 || iter > MAX_ITER`
with `MAX_ITER = 10`, checked after the correction
`prev_jd.add_hours(-delta_t)` is applied.  The fuel-exhaustion branch
returns body count 0; `rst_loop` passes fuel 12, which
`rst_loop_fuel_indep` proves is never exhausted (the `iter > 10` cap
breaks the loop first), so the loop terminates by its own break
conditions. -/
def rst_loop.go (env : MoonEphemeris) (kind : InputKind) (lon : ℚ) :
    ℕ → ℚ → ℕ → (OutputKind ⊕ ℚ) × ℕ
  | 0, prev_jd, _ => (Sum.inr prev_jd, 0)
  | fuel + 1, prev_jd, iter =>
    let c := cos_hour_angle env prev_jd
    if c < -1 then (Sum.inl OutputKind.NeverRises, 1)
    else if c > 1 then (Sum.inl OutputKind.NeverSets, 1)
    else
      let delta_t := delta_t_of env kind lon prev_jd
      let next_jd := prev_jd + -delta_t * constants.HOURS_TO_DAYS
      if |delta_t| < 1 / 60 ∨ iter > 10 then (Sum.inr next_jd, 1)
      else
        let r := rst_loop.go env kind lon fuel next_jd (iter + 1)
        (r.1, r.2 + 1)

/-- The `loop` of `calculate_rise_set_transit`, entered with iteration
counter `iter` (the source starts at 0). -/
def rst_loop (env : MoonEphemeris) (kind : InputKind) (lon : ℚ)
    (prev_jd : ℚ) (iter : ℕ) : (OutputKind ⊕ ℚ) × ℕ :=
  rst_loop.go env kind lon 12 prev_jd iter

/-- Embeds `bound_julian_day` from `rise_set_transit.rs`: the ±12-hour
window around local midday, shifted by the observer's timezone offset.
Returns `(jd_min, jd_midday, jd_max)`. -/
def bound_julian_day (jd : ℚ) (timezone_offset : ℤ) : ℚ × ℚ × ℚ :=
  let date := JD.to_calendar_date jd
  let midday : Date := ⟨date.year, date.month, ftrunc date.day + 0.5⟩
  let jd_midday := JD.from_date midday
    + -(timezone_offset : ℚ) * constants.HOURS_TO_DAYS
  let jd_min := jd_midday + -12 * constants.HOURS_TO_DAYS
  let jd_max := jd_midday + 12 * constants.HOURS_TO_DAYS
  (jd_min, jd_midday, jd_max)

/-- Embeds `calculate_rise_set_transit` from `rise_set_transit.rs` over the
oracle `env`.  `none` models the `unreachable!()` panic in the Transit arm
of the day-window reclassification. -/
def calculate_rise_set_transit (env : MoonEphemeris) (kind : InputKind)
    (jd : ℚ) (timezone_offset : ℤ) (longitude_observer : ℚ) :
    Option OutputKind :=
  let bounds := bound_julian_day jd timezone_offset
  let r := rst_loop env kind longitude_observer bounds.2.1 0
  match r.1 with
  | Sum.inl k => some k
  | Sum.inr final_jd =>
    if bounds.1 ≤ final_jd ∧ final_jd ≤ bounds.2.2 then
      some (OutputKind.Time final_jd)
    else
      match kind with
      | InputKind.Rise => some OutputKind.NeverRises
      | InputKind.Set => some OutputKind.NeverSets
      | InputKind.Transit => none

/-- Oracle with constant declination/right ascension values: `cos H0`
evaluates to `c` at every trial JD, and the local hour angle is the
constant `theta` (for observer longitude 0). -/
def constEnv (c theta : ℚ) : MoonEphemeris where
  sin_decl := fun _ => 0
  cos_decl := fun _ => 1
  ra := fun _ => 0
  theta0 := fun _ => theta
  acos_deg := fun _ => 90
  sin_latitude_observer := 0
  cos_latitude_observer := 1
  sin_h0 := c

theorem rst_go_count_le (env : MoonEphemeris) (kind : InputKind) (lon : ℚ) :
    ∀ fuel (jd : ℚ) (iter : ℕ),
      (rst_loop.go env kind lon fuel jd iter).2 ≤ fuel := by
  intro fuel
  induction fuel with
  | zero =>
    intro jd iter
    simp [rst_loop.go]
  | succ f ih =>
    intro jd iter
    simp only [rst_loop.go]
    split_ifs with h1 h2 h3
    · simp
    · simp
    · simp
    · exact Nat.succ_le_succ (ih _ (iter + 1))

theorem rst_go_count_pos (env : MoonEphemeris) (kind : InputKind) (lon : ℚ) :
    ∀ fuel (jd : ℚ) (iter : ℕ), 1 ≤ fuel →
      1 ≤ (rst_loop.go env kind lon fuel jd iter).2 := by
  intro fuel jd iter hfuel
  cases fuel with
  | zero => omega
  | succ f =>
    simp only [rst_loop.go]
    split_ifs <;> simp

theorem rst_loop_fuel_indep (env : MoonEphemeris) (kind : InputKind) (lon : ℚ) :
    ∀ f g (jd : ℚ) (iter : ℕ), 1 ≤ f → 12 - iter ≤ f → 1 ≤ g → 12 - iter ≤ g →
      rst_loop.go env kind lon f jd iter = rst_loop.go env kind lon g jd iter := by
  intro f
  induction f with
  | zero =>
    intro g jd iter hf1 _ _ _
    omega
  | succ f ih =>
    intro g jd iter hf1 hf2 hg1 hg2
    cases g with
    | zero => omega
    | succ g =>
      simp only [rst_loop.go]
      split_ifs with h1 h2 h3
      · rfl
      · rfl
      · rfl
      · push_neg at h3
        have hiter : iter ≤ 10 := by omega
        rw [ih g (jd + -(delta_t_of env kind lon jd) * constants.HOURS_TO_DAYS)
          (iter + 1) (by omega) (by omega) (by omega) (by omega)]

/-- C2: whenever the computed `cos H0` at a trial Julian Day is less than
-1 the solver returns `NeverRises`, and whenever it is greater than +1 it
returns `NeverSets`, both from any iteration state of the loop and from
the full `calculate_rise_set_transit` (when it happens at the starting
midday); the out-of-range `acos` argument is never consulted and no
numeric error is propagated. -/
theorem C2_out_of_range_classified (env : MoonEphemeris) (kind : InputKind)
    (lon jd : ℚ) (iter : ℕ) (jd0 : ℚ) (tz : ℤ) :
    (cos_hour_angle env jd < -1 →
      (rst_loop env kind lon jd iter).1 = Sum.inl OutputKind.NeverRises) ∧
    (1 < cos_hour_angle env jd →
      (rst_loop env kind lon jd iter).1 = Sum.inl OutputKind.NeverSets) ∧
    (cos_hour_angle env (bound_julian_day jd0 tz).2.1 < -1 →
      calculate_rise_set_transit env kind jd0 tz lon
        = some OutputKind.NeverRises) ∧
    (1 < cos_hour_angle env (bound_julian_day jd0 tz).2.1 →
      calculate_rise_set_transit env kind jd0 tz lon
        = some OutputKind.NeverSets) := by
  have hloop : ∀ (jd' : ℚ),
      (cos_hour_angle env jd' < -1 →
        (rst_loop env kind lon jd' iter).1 = Sum.inl OutputKind.NeverRises) ∧
      (1 < cos_hour_angle env jd' →
        (rst_loop env kind lon jd' iter).1 = Sum.inl OutputKind.NeverSets) := by
    intro jd'
    constructor
    · intro h
      simp only [rst_loop, rst_loop.go]
      rw [if_pos h]
    · intro h
      simp only [rst_loop, rst_loop.go]
      rw [if_neg (by linarith), if_pos h]
  refine ⟨(hloop jd).1, (hloop jd).2, ?_, ?_⟩
  · intro h
    have hl : ∀ (it : ℕ), (rst_loop env kind lon (bound_julian_day jd0 tz).2.1 it).1
        = Sum.inl OutputKind.NeverRises := by
      intro it
      simp only [rst_loop, rst_loop.go]
      rw [if_pos h]
    simp only [calculate_rise_set_transit]
    rw [hl 0]
  · intro h
    have hl : ∀ (it : ℕ), (rst_loop env kind lon (bound_julian_day jd0 tz).2.1 it).1
        = Sum.inl OutputKind.NeverSets := by
      intro it
      simp only [rst_loop, rst_loop.go]
      rw [if_neg (by linarith), if_pos h]
    simp only [calculate_rise_set_transit]
    rw [hl 0]

/-- Witness for C2: an oracle making `cos H0 = -2` classifies as
`NeverRises`, one making `cos H0 = 2` classifies as `NeverSets`. -/
theorem C2_out_of_range_classified_witness :
    (rst_loop (constEnv (-2) 0) InputKind.Rise 0 2451545 0).1
        = Sum.inl OutputKind.NeverRises ∧
      (rst_loop (constEnv 2 0) InputKind.Set 0 2451545 0).1
        = Sum.inl OutputKind.NeverSets :=
  ⟨(C2_out_of_range_classified (constEnv (-2) 0) InputKind.Rise 0 2451545 0
      2451545 0).1 (by norm_num [cos_hour_angle, constEnv]),
    (C2_out_of_range_classified (constEnv 2 0) InputKind.Set 0 2451545 0
      2451545 0).2.1 (by norm_num [cos_hour_angle, constEnv])⟩

/-- C3 (amended): when the Transit iteration exits with a trial time, the
result is never reclassified to `NeverRises`/`NeverSets`: it is
`Time(final)` when the final JD lies inside the ±12-hour day window, and
the `unreachable!()` abort (modelled `none`) when it lies outside. -/
theorem C3_transit_no_reclassification (env : MoonEphemeris) (jd0 : ℚ)
    (tz : ℤ) (lon : ℚ) (final : ℚ)
    (hloop : (rst_loop env InputKind.Transit lon
        (bound_julian_day jd0 tz).2.1 0).1 = Sum.inr final) :
    calculate_rise_set_transit env InputKind.Transit jd0 tz lon =
      (if (bound_julian_day jd0 tz).1 ≤ final ∧
          final ≤ (bound_julian_day jd0 tz).2.2
        then some (OutputKind.Time final) else none) := by
  simp only [calculate_rise_set_transit]
  rw [hloop]

/-- Witness for C3: an oracle whose correction is 0 converges at local
midday of 2000-01-01 in one pass and produces `Time` (inside the window). -/
theorem C3_transit_no_reclassification_witness :
    (rst_loop (constEnv 0 0) InputKind.Transit 0
        (bound_julian_day 2451545 0).2.1 0).1 = Sum.inr (2451545 : ℚ) ∧
      calculate_rise_set_transit (constEnv 0 0) InputKind.Transit 2451545 0 0 =
        (if (bound_julian_day 2451545 0).1 ≤ (2451545 : ℚ) ∧
            (2451545 : ℚ) ≤ (bound_julian_day 2451545 0).2.2
          then some (OutputKind.Time 2451545) else none) := by
  have hloop : (rst_loop (constEnv 0 0) InputKind.Transit 0
      (bound_julian_day 2451545 0).2.1 0).1 = Sum.inr (2451545 : ℚ) := by
    norm_num [rst_loop, rst_loop.go, cos_hour_angle, constEnv, delta_t_of,
      local_siderial_time, Degrees.map_to_0_to_360, Degrees.map_neg180_to_180,
      Degrees.to_hours, delta_hour_angle_of, constants.SIDERIAL_TO_SOLAR_TIME,
      constants.HOURS_TO_DAYS, frem, ftrunc, abs_lt, bound_julian_day,
      JD.to_calendar_date, JD.from_date, Date.is_julian_calendar, truncInt]
  exact ⟨hloop, C3_transit_no_reclassification (constEnv 0 0) 2451545 0 0
    2451545 hloop⟩

/-- Counterexample to C3 as stated: with an oracle giving a constant local
hour angle of 179° the Transit iteration drifts about half a day per pass,
exits far outside the ±12-hour window around 2000-01-01 midday, and
`calculate_rise_set_transit` hits the `unreachable!()` abort (`none`)
instead of returning a `Time`. -/
theorem C3_transit_counterexample :
    calculate_rise_set_transit (constEnv 0 179) InputKind.Transit
      2451545 0 0 = none := by
  norm_num [calculate_rise_set_transit, bound_julian_day, JD.to_calendar_date,
    JD.from_date, Date.is_julian_calendar, truncInt,
    rst_loop, rst_loop.go, cos_hour_angle, constEnv, delta_t_of,
    local_siderial_time, Degrees.map_to_0_to_360, Degrees.map_neg180_to_180,
    Degrees.to_hours, delta_hour_angle_of, constants.SIDERIAL_TO_SOLAR_TIME,
    constants.HOURS_TO_DAYS, frem, ftrunc, abs_lt]

/-- C4 (amended): the rise/set/transit fixed-point loop always terminates
by its own break conditions: its body count is between 1 and 12 (the
source checks `iter > MAX_ITER` with `MAX_ITER = 10` after a
post-correction increment, so up to 12 passes from `iter = 0`, not 10),
the result does not depend on the fuel once it is at least 12, and as soon
as the correction is below 1/60 hour (or the iteration cap is exceeded)
the loop exits that same pass, returning the last trial JD with no
error. -/
theorem C4_loop_termination (env : MoonEphemeris) (kind : InputKind)
    (lon jd : ℚ) (iter : ℕ) :
    (rst_loop env kind lon jd iter).2 ≤ 12 ∧
    1 ≤ (rst_loop env kind lon jd iter).2 ∧
    (∀ fuel, 12 ≤ fuel →
      rst_loop.go env kind lon fuel jd iter = rst_loop env kind lon jd iter) ∧
    (¬ cos_hour_angle env jd < -1 → ¬ cos_hour_angle env jd > 1 →
      (|delta_t_of env kind lon jd| < 1 / 60 ∨ iter > 10) →
      rst_loop env kind lon jd iter =
        (Sum.inr (jd + -delta_t_of env kind lon jd * constants.HOURS_TO_DAYS),
          1)) := by
  refine ⟨rst_go_count_le env kind lon 12 jd iter,
    rst_go_count_pos env kind lon 12 jd iter (by omega), ?_, ?_⟩
  · intro fuel hfuel
    exact rst_loop_fuel_indep env kind lon fuel 12 jd iter (by omega) (by omega)
      (by omega) (by omega)
  · intro h1 h2 h3
    simp only [rst_loop, rst_loop.go]
    rw [if_neg h1, if_neg h2, if_pos h3]

/-- Witness for C4 at a concrete oracle, past the iteration cap. -/
theorem C4_loop_termination_witness :
    (rst_loop (constEnv 0 0) InputKind.Transit 0 2451545 11).2 ≤ 12 ∧
      rst_loop (constEnv 0 0) InputKind.Transit 0 2451545 11 =
        (Sum.inr ((2451545 : ℚ) +
          -delta_t_of (constEnv 0 0) InputKind.Transit 0 2451545
            * constants.HOURS_TO_DAYS), 1) :=
  ⟨(C4_loop_termination (constEnv 0 0) InputKind.Transit 0 2451545 11).1,
    (C4_loop_termination (constEnv 0 0) InputKind.Transit 0 2451545 11).2.2.2
      (by norm_num [cos_hour_angle, constEnv])
      (by norm_num [cos_hour_angle, constEnv])
      (Or.inr (by norm_num))⟩

/-- Counterexample to C4 as stated: on a non-converging oracle the loop
body executes 12 times from `iter = 0`, exceeding the claimed bound of 10
iterations. -/
theorem C4_counterexample_twelve_iterations :
    (rst_loop (constEnv 0 179) InputKind.Transit 0 2451545 0).2 = 12 ∧
      ¬ (rst_loop (constEnv 0 179) InputKind.Transit 0 2451545 0).2 ≤ 10 := by
  have h : (rst_loop (constEnv 0 179) InputKind.Transit 0 2451545 0).2 = 12 := by
    norm_num [rst_loop, rst_loop.go, cos_hour_angle, constEnv, delta_t_of,
      local_siderial_time, Degrees.map_to_0_to_360, Degrees.map_neg180_to_180,
      Degrees.to_hours, delta_hour_angle_of, constants.SIDERIAL_TO_SOLAR_TIME,
      constants.HOURS_TO_DAYS, frem, ftrunc, abs_lt]
  exact ⟨h, by omega⟩

/-- C5 at the failing input: for `jd` at (or after) the last table entry
(2017-01-01, 37 s), `cumulative_leap_seconds` leaves `idx` at
`len - 1` and reads `data[idx - 1]`, the second-to-last entry, returning
36 s — not the 37 s that using the last entry (as the claim and the
function's own TAI−UTC documentation require) would give. -/
theorem C5_cumulative_leap_seconds_off_by_one :
    cumulative_leap_seconds (2457754.5 : ℚ) = 36 ∧
      (LEAP_SECOND_DATA.getD (LEAP_SECOND_DATA.length - 1) default).leap_seconds
        + (jd_to_mjd 2457754.5
            - (LEAP_SECOND_DATA.getD (LEAP_SECOND_DATA.length - 1)
                default).base_mjd)
          * (LEAP_SECOND_DATA.getD (LEAP_SECOND_DATA.length - 1)
              default).coefficient = 37 := by
  have hlen : LEAP_SECOND_DATA.length = 41 := rfl
  have h0 : LEAP_SECOND_DATA[0]? = some ⟨2437300.5, 1.4228180, 37300.0, 0.001296⟩ := rfl
  have h39 : LEAP_SECOND_DATA[39]? = some ⟨2457204.5, 36.0, 41317.0, 0.0⟩ := rfl
  have h40 : LEAP_SECOND_DATA[40]? = some ⟨2457754.5, 37.0, 41317.0, 0.0⟩ := rfl
  constructor
  · simp only [cumulative_leap_seconds, hlen]
    norm_num [h0, h39, h40, jd_to_mjd]
  · rw [hlen]
    norm_num [h40, jd_to_mjd]

/-- C7 (amended): `map_to_0_to_360` always lands in `[0, 360)` and
`map_to_neg90_to_90` always lands in `(-90, 90) ⊆ [-90, 90)`, but
`map_neg180_to_180` only lands in the closed interval `[-180, 180]` — the
right endpoint 180 is attained (see the counterexample) — and all three
functions are idempotent. -/
theorem C7_normalization_maps (x : ℚ) :
    (0 ≤ Degrees.map_to_0_to_360 x ∧ Degrees.map_to_0_to_360 x < 360) ∧
    Degrees.map_to_0_to_360 (Degrees.map_to_0_to_360 x)
      = Degrees.map_to_0_to_360 x ∧
    (-90 ≤ Degrees.map_to_neg90_to_90 x ∧ Degrees.map_to_neg90_to_90 x < 90) ∧
    Degrees.map_to_neg90_to_90 (Degrees.map_to_neg90_to_90 x)
      = Degrees.map_to_neg90_to_90 x ∧
    (-180 ≤ Degrees.map_neg180_to_180 x ∧ Degrees.map_neg180_to_180 x ≤ 180) ∧
    Degrees.map_neg180_to_180 (Degrees.map_neg180_to_180 x)
      = Degrees.map_neg180_to_180 x := by
  obtain ⟨h90a, h90b⟩ := Degrees.map_to_neg90_to_90_mem x
  exact ⟨Degrees.map_to_0_to_360_mem x, Degrees.map_to_0_to_360_idem x,
    ⟨le_of_lt h90a, h90b⟩, Degrees.map_to_neg90_to_90_idem x,
    Degrees.map_neg180_to_180_mem x, Degrees.map_neg180_to_180_idem x⟩

/-- Counterexample to C7 as stated: `map_neg180_to_180` applied to 180
returns 180 itself, which is not inside the claimed half-open interval
`[-180, 180)`. -/
theorem C7_map_neg180_to_180_at_180 :
    Degrees.map_neg180_to_180 (180 : ℚ) = 180 ∧
      ¬ Degrees.map_neg180_to_180 (180 : ℚ) < 180 := by
  have h : Degrees.map_neg180_to_180 (180 : ℚ) = 180 := by
    norm_num [Degrees.map_neg180_to_180]
  exact ⟨h, by rw [h]; norm_num⟩

noncomputable section

/-- Embeds `refraction_for_true_altitude` from `refraction.rs` over `ℝ`.
Note that the source computes `1.02 / (...).atan() + 0.0019279`: it applies
`f64::atan` (the inverse tangent) to the radian-converted argument of
Meeus eq. 16.4 — not `tan` — and its own regression test
(`refraction_for_true_altitude_test_2`, 29 arcmin 5.636 arcsec) pins that
behavior down. -/
def refraction_for_true_altitude (altitude pressure temperature : ℝ) : ℝ :=
  let h : ℝ :=
    if altitude ≤ -1.9006387000003735 then -1.9006387000003735 else altitude
  let r := 1.02 / Real.arctan ((h + 10.3 / (h + 5.11)) * (Real.pi / 180))
    + 0.0019279
  let d := pressure / 1010 * 283 / (273 + temperature)
  let refraction := r * d
  refraction / 60

/-- Follows the specification's words for the same function, for
comparison: `R = 1.02 / tan(h + 10.3/(h + 5.11)) + 0.0019279` arcminutes
(the tangent of the radian-converted degree argument), the same clamp at
-1.9006387°, the same `(P/1010)·(283/(273+T))` scaling, the same
arcminute-to-degree conversion. -/
def refraction_for_true_altitude_spec (altitude pressure temperature : ℝ) : ℝ :=
  let h : ℝ :=
    if altitude ≤ -1.9006387000003735 then -1.9006387000003735 else altitude
  let r := 1.02 / Real.tan ((h + 10.3 / (h + 5.11)) * (Real.pi / 180))
    + 0.0019279
  let d := pressure / 1010 * 283 / (273 + temperature)
  let refraction := r * d
  refraction / 60

/-- C8 (amended): `refraction_for_true_altitude` first clamps the altitude
at the fixed minimum -1.9006387° (exactly -1.9006387000003735 in the
source), then computes `R = 1.02 / arctan(h + 10.3/(h + 5.11)) +
0.0019279` in arcminutes — the source applies the inverse tangent, not the
tangent the claim states — scales it by `(P/1010)·(283/(273+T))`, and
converts the result from arcminutes to degrees. -/
theorem C8_refraction_clamp_formula (altitude pressure temperature : ℝ) :
    refraction_for_true_altitude altitude pressure temperature =
      (1.02 / Real.arctan ((max altitude (-1.9006387000003735)
          + 10.3 / (max altitude (-1.9006387000003735) + 5.11))
          * (Real.pi / 180)) + 0.0019279)
        * (pressure / 1010 * 283 / (273 + temperature)) / 60 := by
  simp only [refraction_for_true_altitude]
  rcases le_or_lt altitude (-1.9006387000003735) with hc | hc
  · rw [if_pos hc, max_eq_right hc]
  · rw [if_neg (not_le.mpr hc), max_eq_left hc.le]

/-- Counterexample to C8 as stated: at true altitude 0°, pressure 1013 mb,
temperature 10 °C, the value computed by the source (with `arctan`)
differs from the value of the claim's formula (with `tan`), because
`arctan x < x < tan x` at the positive argument `x ≈ 0.0352 rad`. -/
theorem C8_counterexample_refraction_tan :
    refraction_for_true_altitude 0 1013 10
      ≠ refraction_for_true_altitude_spec 0 1013 10 := by
  have hcond : ¬ ((0:ℝ) ≤ -1.9006387000003735) := by norm_num
  have hpi := Real.pi_pos
  set x : ℝ := ((0:ℝ) + 10.3 / ((0:ℝ) + 5.11)) * (Real.pi / 180) with hxdef
  have hx0 : 0 < x := by
    rw [hxdef]
    have h1 : (0:ℝ) < (0:ℝ) + 10.3 / ((0:ℝ) + 5.11) := by norm_num
    positivity
  have hxlt : x < Real.pi / 2 := by
    rw [hxdef]
    have h1 : ((0:ℝ) + 10.3 / ((0:ℝ) + 5.11)) < 90 := by norm_num
    nlinarith
  have htan : x < Real.tan x := Real.lt_tan hx0 hxlt
  have harctan : Real.arctan x < x := by
    have hmono : Real.arctan x < Real.arctan (Real.tan x) :=
      Real.arctan_strictMono htan
    rwa [Real.arctan_tan (by linarith) hxlt] at hmono
  have hatpos : 0 < Real.arctan x := by
    have := Real.arctan_strictMono hx0
    rwa [Real.arctan_zero] at this
  have hlt : 1.02 / Real.tan x < 1.02 / Real.arctan x :=
    div_lt_div_of_pos_left (by norm_num) hatpos (lt_trans harctan htan)
  have hd : (0:ℝ) < (1013:ℝ) / 1010 * 283 / (273 + 10) := by norm_num
  simp only [refraction_for_true_altitude, refraction_for_true_altitude_spec,
    if_neg hcond]
  rw [← hxdef]
  intro heq
  have hne : 1.02 / Real.tan x < 1.02 / Real.arctan x := hlt
  nlinarith [heq, hd, hne]

/-- Embeds the records of the `SIGMA_L_AND_R_COEFFICIENTS` table consumed
by `position.rs`: integer multipliers of the fundamental arguments
(D, M, M', F) and the `Σl`/`Σr` amplitudes (the source's
`(i8, i8, i8, i8, i64, i64)` tuples, fields in that order). -/
structure SigmaLRTerm where
  d : ℤ
  m : ℤ
  mp : ℤ
  f : ℤ
  l : ℤ
  r : ℤ

/-- Embeds the records of the `SIGMA_B_COEFFICIENTS` table consumed by
`position.rs` (the source's `(i8, i8, i8, i8, i64)` tuples). -/
structure SigmaBTerm where
  d : ℤ
  m : ℤ
  mp : ℤ
  f : ℤ
  b : ℤ

/-- One term of the `Σl` fold of `geocentric_longitude` from
`position.rs`: the sine argument over the radian-valued fundamental
arguments, and the source's two sequential eccentricity conditionals
(`if c.1 != 0 { coeff *= e }` then `if c.1 == -2 || c.1 == 2 { coeff *= e }`). -/
def sigma_l_term (e d m mp f : ℝ) (c : SigmaLRTerm) : ℝ :=
  let sin_arg := (c.d : ℝ) * d + (c.m : ℝ) * m + (c.mp : ℝ) * mp + (c.f : ℝ) * f
  let coeff : ℝ := (c.l : ℝ)
  let coeff := if c.m ≠ 0 then coeff * e else coeff
  let coeff := if c.m = -2 ∨ c.m = 2 then coeff * e else coeff
  coeff * Real.sin sin_arg

/-- The `Σl` fold of `geocentric_longitude` from `position.rs`. -/
def sigma_l (table : List SigmaLRTerm) (e d m mp f : ℝ) : ℝ :=
  table.foldl (fun accum c => accum + sigma_l_term e d m mp f c) 0

/-- One term of the `Σb` fold of `geocentric_latitude` from `position.rs`
(same eccentricity conditionals, amplitude from the `Σb` table). -/
def sigma_b_term (e d m mp f : ℝ) (c : SigmaBTerm) : ℝ :=
  let sin_arg := (c.d : ℝ) * d + (c.m : ℝ) * m + (c.mp : ℝ) * mp + (c.f : ℝ) * f
  let coeff : ℝ := (c.b : ℝ)
  let coeff := if c.m ≠ 0 then coeff * e else coeff
  let coeff := if c.m = -2 ∨ c.m = 2 then coeff * e else coeff
  coeff * Real.sin sin_arg

/-- The `Σb` fold of `geocentric_latitude` from `position.rs`. -/
def sigma_b (table : List SigmaBTerm) (e d m mp f : ℝ) : ℝ :=
  table.foldl (fun accum c => accum + sigma_b_term e d m mp f c) 0

/-- One term of the `Σr` fold of `distance_from_earth` from `position.rs`
(same eccentricity conditionals, cosine, amplitude `c.5`). -/
def sigma_r_term (e d m mp f : ℝ) (c : SigmaLRTerm) : ℝ :=
  let cos_arg := (c.d : ℝ) * d + (c.m : ℝ) * m + (c.mp : ℝ) * mp + (c.f : ℝ) * f
  let coeff : ℝ := (c.r : ℝ)
  let coeff := if c.m ≠ 0 then coeff * e else coeff
  let coeff := if c.m = -2 ∨ c.m = 2 then coeff * e else coeff
  coeff * Real.cos cos_arg

/-- The `Σr` fold of `distance_from_earth` from `position.rs`. -/
def sigma_r (table : List SigmaLRTerm) (e d m mp f : ℝ) : ℝ :=
  table.foldl (fun accum c => accum + sigma_r_term e d m mp f c) 0

/-- The per-term eccentricity factor as the specification states it:
`e` for an M-multiplier of ±1, `e²` for ±2, no scaling for 0 (and the
source's single `e` for any other nonzero multiplier, which no table of
Meeus ch. 47 contains). -/
def e_scaling (m : ℤ) (e : ℝ) : ℝ :=
  if m = 1 ∨ m = -1 then e
  else if m = 2 ∨ m = -2 then e * e
  else if m = 0 then 1
  else e

theorem foldl_add_sum {α : Type} (g : α → ℝ) :
    ∀ (l : List α) (init : ℝ),
      l.foldl (fun accum c => accum + g c) init = init + (l.map g).sum := by
  intro l
  induction l with
  | nil => simp
  | cons a t ih =>
    intro init
    simp only [List.foldl_cons, List.map_cons, List.sum_cons, ih]
    ring

theorem term_scaling (mm : ℤ) (amp e : ℝ) :
    (if mm = -2 ∨ mm = 2 then (if mm ≠ 0 then amp * e else amp) * e
      else (if mm ≠ 0 then amp * e else amp)) = e_scaling mm e * amp := by
  unfold e_scaling
  split_ifs <;> try ring
  all_goals exfalso
  all_goals omega

/-- C9: in the Moon series sums of `geocentric_longitude`,
`geocentric_latitude` and `distance_from_earth`, the eccentricity scaling
is applied per term: each sum equals the termwise sum in which a term with
M-multiplier ±1 carries the factor `e` exactly once, a term with
M-multiplier ±2 carries `e` twice (`e²`), and a term with M-multiplier 0
carries no factor — for every coefficient table and all argument values. -/
theorem C9_eccentricity_per_term (tableLR : List SigmaLRTerm)
    (tableB : List SigmaBTerm) (e d m mp f : ℝ) :
    sigma_l tableLR e d m mp f
      = (tableLR.map (fun c => e_scaling c.m e * (c.l : ℝ)
          * Real.sin ((c.d : ℝ) * d + (c.m : ℝ) * m + (c.mp : ℝ) * mp
            + (c.f : ℝ) * f))).sum ∧
    sigma_b tableB e d m mp f
      = (tableB.map (fun c => e_scaling c.m e * (c.b : ℝ)
          * Real.sin ((c.d : ℝ) * d + (c.m : ℝ) * m + (c.mp : ℝ) * mp
            + (c.f : ℝ) * f))).sum ∧
    sigma_r tableLR e d m mp f
      = (tableLR.map (fun c => e_scaling c.m e * (c.r : ℝ)
          * Real.cos ((c.d : ℝ) * d + (c.m : ℝ) * m + (c.mp : ℝ) * mp
            + (c.f : ℝ) * f))).sum ∧
    (∀ mm : ℤ, ∀ eps : ℝ,
      ((mm = 1 ∨ mm = -1) → e_scaling mm eps = eps) ∧
      ((mm = 2 ∨ mm = -2) → e_scaling mm eps = eps * eps) ∧
      (mm = 0 → e_scaling mm eps = 1)) := by
  have hterm_l : ∀ c : SigmaLRTerm, sigma_l_term e d m mp f c
      = e_scaling c.m e * (c.l : ℝ)
        * Real.sin ((c.d : ℝ) * d + (c.m : ℝ) * m + (c.mp : ℝ) * mp
          + (c.f : ℝ) * f) := by
    intro c
    simp only [sigma_l_term]
    rw [term_scaling c.m ((c.l : ℤ) : ℝ) e]
  have hterm_b : ∀ c : SigmaBTerm, sigma_b_term e d m mp f c
      = e_scaling c.m e * (c.b : ℝ)
        * Real.sin ((c.d : ℝ) * d + (c.m : ℝ) * m + (c.mp : ℝ) * mp
          + (c.f : ℝ) * f) := by
    intro c
    simp only [sigma_b_term]
    rw [term_scaling c.m ((c.b : ℤ) : ℝ) e]
  have hterm_r : ∀ c : SigmaLRTerm, sigma_r_term e d m mp f c
      = e_scaling c.m e * (c.r : ℝ)
        * Real.cos ((c.d : ℝ) * d + (c.m : ℝ) * m + (c.mp : ℝ) * mp
          + (c.f : ℝ) * f) := by
    intro c
    simp only [sigma_r_term]
    rw [term_scaling c.m ((c.r : ℤ) : ℝ) e]
  refine ⟨?_, ?_, ?_, ?_⟩
  · rw [sigma_l, foldl_add_sum (sigma_l_term e d m mp f) tableLR 0, zero_add]
    exact congrArg List.sum (List.map_congr_left (fun c _ => hterm_l c))
  · rw [sigma_b, foldl_add_sum (sigma_b_term e d m mp f) tableB 0, zero_add]
    exact congrArg List.sum (List.map_congr_left (fun c _ => hterm_b c))
  · rw [sigma_r, foldl_add_sum (sigma_r_term e d m mp f) tableLR 0, zero_add]
    exact congrArg List.sum (List.map_congr_left (fun c _ => hterm_r c))
  · intro mm eps
    refine ⟨?_, ?_, ?_⟩ <;> intro hmm <;> unfold e_scaling <;>
      split_ifs <;> try rfl
    all_goals exfalso
    all_goals omega

/-- Model of Rust `f64::trunc` over `ℝ` (round toward zero). -/
def ftruncR (x : ℝ) : ℝ :=
  if 0 ≤ x then (⌊x⌋ : ℝ) else (⌈x⌉ : ℝ)

/-- Model of the Rust `%` operator over `ℝ` (truncated remainder). -/
def fremR (x y : ℝ) : ℝ :=
  x - y * ftruncR (x / y)

/-- `Degrees::map_to_0_to_360` from `degrees.rs`, over `ℝ` (used by the
real-valued embeddings below). -/
def map_to_0_to_360_real (x : ℝ) : ℝ :=
  let m := fremR x 360
  if m < 0 then m + 360 else m

/-- Model of Rust `f64::atan2 (self = y, other = x)` for finite arguments. -/
def atan2 (y x : ℝ) : ℝ :=
  if 0 < x then Real.arctan (y / x)
  else if x < 0 then
    (if 0 ≤ y then Real.arctan (y / x) + Real.pi
      else Real.arctan (y / x) - Real.pi)
  else
    (if 0 < y then Real.pi / 2 else if y < 0 then -(Real.pi / 2) else 0)

/-- Embeds the core of `phase_angle` from `phase.rs`: the geocentric
elongation `psi` (Meeus eq. 48.2) from the equatorial coordinates of Sun
and Moon, the `atan2` phase angle (eq. 48.3), converted to degrees and
mapped to `[0, 360)`.  The upstream position computations supplying
`dec_sun`, `dec_moon`, `ra_sun`, `ra_moon` (radian-valued), the Earth-Sun
distance `r` and the Earth-Moon distance `delta` enter as real
parameters. -/
def phase_angle_core (dec_sun dec_moon ra_sun ra_moon r delta : ℝ) : ℝ :=
  let psi := Real.arccos (Real.sin dec_sun * Real.sin dec_moon
    + Real.cos dec_sun * Real.cos dec_moon * Real.cos (ra_sun - ra_moon))
  let phase_angle := atan2 (r * Real.sin psi) (delta - r * Real.cos psi)
  map_to_0_to_360_real (phase_angle * (180 / Real.pi))

/-- Embeds `fraction_illuminated` from `phase.rs`:
`(1 + cos(phase_angle))/2`, with the degree-valued phase angle converted
back to radians (`Radians::from`). -/
def fraction_illuminated_core (dec_sun dec_moon ra_sun ra_moon r delta : ℝ) : ℝ :=
  (1 + Real.cos (phase_angle_core dec_sun dec_moon ra_sun ra_moon r delta
    * (Real.pi / 180))) / 2

/-- C10: the illuminated fraction is always inside `[0, 1]`: it equals
`(1 + cos(phase angle))/2` and the phase angle is a real angle, whatever
real values the upstream position computations produce — hence for every
Julian Day input. -/
theorem C10_fraction_illuminated_in_unit_interval
    (dec_sun dec_moon ra_sun ra_moon r delta : ℝ) :
    0 ≤ fraction_illuminated_core dec_sun dec_moon ra_sun ra_moon r delta ∧
      fraction_illuminated_core dec_sun dec_moon ra_sun ra_moon r delta ≤ 1 := by
  unfold fraction_illuminated_core
  have h1 := Real.neg_one_le_cos
    (phase_angle_core dec_sun dec_moon ra_sun ra_moon r delta * (Real.pi / 180))
  have h2 := Real.cos_le_one
    (phase_angle_core dec_sun dec_moon ra_sun ra_moon r delta * (Real.pi / 180))
  constructor <;> linarith

end
